import Mathlib

/-!
Verification of the lxb-translator core: the binary string-extraction /
substitution engine and its translation-dispatch cache.

Buffers are modelled as lists of byte values (`List Nat`); strings that the
JavaScript code passes to `Buffer.from(·, "utf-8")` enter the byte-level
functions as their encoded byte lists.  Dispatcher-level code works on
`String` directly.  Fallible backend calls are modelled as `Option`-valued
services; `none` stands for a thrown error.
-/

namespace Lxb

/-! ### Buffer rewriter (`replaceInBuffer`) and quote normalization -/

/-- Byte-level image of `replaceQuotesInText` (`text.replace(/"/g, "'")`):
every `0x22` (double quote) byte becomes `0x27` (apostrophe).  In UTF-8 the
byte `0x22` occurs only as the double-quote character, so mapping bytes is
exactly encoding the string-level replacement. -/
def replaceQuotesBytes (l : List Nat) : List Nat :=
  l.map (fun b => if b = 0x22 then 0x27 else b)

/-- Model of Node's `source.indexOf(searchBuffer, position)`: the first index
`i ≥ pos` at which `s` occurs as a full sub-list of `B`; `none` when there is
no such occurrence (Node returns `-1`). -/
def bufIndexOf (B s : List Nat) (pos : Nat) : Option Nat :=
  (List.range (B.length + 1)).find? (fun i => decide (pos ≤ i) && s.isPrefixOf (B.drop i))

/-- The `while` loop of `replaceInBuffer`, with the pushed chunks concatenated
on the fly (the source pushes chunks into an array and ends with
`Buffer.concat`).  `pos` is the JavaScript `position` variable; the fuel
argument only guards against the non-terminating `search = []` case, which the
source would also loop on, and is never exhausted for non-empty `search`. -/
def replaceInBufferAux (B s r : List Nat) : Nat → Nat → List Nat
  | 0, pos => B.drop pos
  | fuel + 1, pos =>
    if pos < B.length then
      match bufIndexOf B s pos with
      | none => B.drop pos
      | some i => (B.drop pos).take (i - pos) ++ r ++ replaceInBufferAux B s r fuel (i + s.length)
    else []

/-- `replaceInBuffer` of `src/unnamed/part_000` (no quote normalization):
replace every non-overlapping occurrence of `search`, scanning left to right
and resuming each search at the end of the previous match. -/
def replaceInBuffer (source search replace : List Nat) : List Nat :=
  replaceInBufferAux source search replace (source.length + 1) 0

/-- `replaceInBuffer` of the main variant `src/src/index.ts`: identical loop,
but both `search` and `replace` are passed through `replaceQuotesInText`
before being encoded. -/
def replaceInBufferMain (source search replace : List Nat) : List Nat :=
  replaceInBuffer source (replaceQuotesBytes search) (replaceQuotesBytes replace)

/-- The inter-match segments of `B` produced by the very same resuming search
that `replaceInBufferAux` performs: `B` decomposes as
`seg₀ ++ s ++ seg₁ ++ s ++ … ++ s ++ segₖ` and the rewriter's output is the
same list joined with `r` instead of `s`. -/
def chunksFromAux (B s : List Nat) : Nat → Nat → List (List Nat)
  | 0, pos => [B.drop pos]
  | fuel + 1, pos =>
    if pos < B.length then
      match bufIndexOf B s pos with
      | none => [B.drop pos]
      | some i => (B.drop pos).take (i - pos) :: chunksFromAux B s fuel (i + s.length)
    else [[]]

/-- Inter-match segments of `B` for search text `s`, at the fuel
`replaceInBuffer` itself runs with. -/
def chunks (B s : List Nat) : List (List Nat) :=
  chunksFromAux B s (B.length + 1) 0

/-! ### Token scanner (`extractStrings`) -/

/-- Printable-ASCII test of the scanner (`byte >= 0x20 && byte <= 0x7e`). -/
def isPrintable (b : Nat) : Bool :=
  decide (0x20 ≤ b) && decide (b ≤ 0x7e)

/-- Byte-level image of the regex test `/[a-zA-ZÀ-ÿ]/` applied to a candidate
fragment: some byte is an ASCII letter or in the `À`–`ÿ` code-point range. -/
def isAlphaByte (b : Nat) : Bool :=
  (decide (0x41 ≤ b) && decide (b ≤ 0x5a)) ||
  (decide (0x61 ≤ b) && decide (b ≤ 0x7a)) ||
  (decide (0xc0 ≤ b) && decide (b ≤ 0xff))

/-- `/[a-zA-ZÀ-ÿ]/.test(str)` for a byte-list fragment. -/
def hasAlpha (l : List Nat) : Bool := l.any isAlphaByte

/-- JavaScript `Set.add` observed through `Array.from`: append if absent,
preserving first-seen order. -/
def setAdd (acc : List (List Nat)) (s : List Nat) : List (List Nat) :=
  if s ∈ acc then acc else acc ++ [s]

/-- The scanner loop of `extractStrings` (`src/unnamed/part_000`, byte for
byte; the main variant differs only by pre-normalizing quote characters,
which does not change any branch below).  `cur` is the pending accumulator
`current`, `inDollar` the `inDollarBlock` flag, `acc` the result `Set` in
insertion order.  Note that the source neither flushes `current` when a `$`
block opens nor when the input ends. -/
def extractStringsGo : List Nat → List Nat → Bool → List (List Nat) → List (List Nat)
  | [], _, _, acc => acc
  | b :: rest, cur, inDollar, acc =>
    if b = 0x24 then
      if inDollar then
        extractStringsGo rest [] false (setAdd acc (0x24 :: cur ++ [0x24]))
      else
        extractStringsGo rest cur true acc
    else if inDollar then
      extractStringsGo rest (cur ++ [b]) true acc
    else if isPrintable b then
      extractStringsGo rest (cur ++ [b]) false acc
    else if 3 ≤ cur.length then
      extractStringsGo rest [] false (if hasAlpha cur then setAdd acc cur else acc)
    else
      extractStringsGo rest [] false acc

/-- `extractStrings(buffer)`: distinct fragments in first-seen order
(`minStringLength` is its configured default 3). -/
def extractStrings (buffer : List Nat) : List (List Nat) :=
  extractStringsGo buffer [] false []

/-- An occurrence of `s` at position `i` of `B`: `s` is a pointwise prefix of
the suffix of `B` starting at `i`. -/
def occursAt (s B : List Nat) (i : Nat) : Prop :=
  s.isPrefixOf (B.drop i) = true

/-! ### Translation cache (in-memory structure) and dispatcher -/

/-- The nested translation cache `filename → source text → translated text`
(`translationCache: Record<string, Record<string, string>>`), as an
association list in property-insertion order. -/
abbrev Cache := List (String × List (String × String))

/-- JavaScript property read `obj[key]`: the binding of `key`, if any. -/
def assocGet {α : Type} : List (String × α) → String → Option α
  | [], _ => none
  | (k, v) :: rest, key => if k = key then some v else assocGet rest key

/-- JavaScript property write `obj[key] = v`: overwrite in place, else append. -/
def assocPut {α : Type} : List (String × α) → String → α → List (String × α)
  | [], key, v => [(key, v)]
  | (k, w) :: rest, key, v =>
    if k = key then (k, v) :: rest else (k, w) :: assocPut rest key v

/-- The read `translationCache[filename][text]`. -/
def cacheGet (c : Cache) (filename text : String) : Option String :=
  match assocGet c filename with
  | none => none
  | some m => assocGet m text

/-- The write `translationCache[filename][text] = translated` (`translateText`
creates the per-file object first; an absent file entry is created here so the
operation is total). -/
def cachePut (c : Cache) (filename text translated : String) : Cache :=
  match assocGet c filename with
  | none => c ++ [(filename, [(text, translated)])]
  | some m => assocPut c filename (assocPut m text translated)

/-- JavaScript truthiness of the cache-hit test
`if (translationCache[filename][text])`: present and not the empty string. -/
def truthyHit : Option String → Bool
  | none => false
  | some v => !(v == "")

/-- The process-wide mutable state the dispatcher touches: the cache and the
three run counters. -/
structure TransState where
  cache : Cache
  requestCount : Nat
  translatedCount : Nat
  errorCount : Nat
deriving DecidableEq

/-- Observable actions of a dispatcher call, in order: `save` is a
`saveCache()` call, `pause` the cooldown suspension
(`setTimeout(cooldownTime)`), `request t` one invocation of the configured
backend on `t`. -/
inductive Event where
  | save : Event
  | pause : Event
  | request : String → Event
deriving DecidableEq

/-- The configuration fields `translateText` reads
(`CONFIG.minStringLength = 3`, `CONFIG.requestLimit = 50` by default). -/
structure Config where
  minStringLength : Nat
  requestLimit : Nat
deriving DecidableEq

/-- The protected-token test `text.startsWith("$") && text.endsWith("$")`:
with the one-character pattern `"$"` this is exactly "the first character is
`$` and the last character is `$`" (false on the empty string), stated on the
character list so it evaluates. -/
def isProtected (text : String) : Bool :=
  (text.data.head? == some '$') && (text.data.getLast? == some '$')

/-- String-level `replaceQuotesInText`: `text.replace(/"/g, "'")`. -/
def replaceQuotesInText (s : String) : String :=
  ⟨s.data.map (fun c => if c = '"' then '\'' else c)⟩

/-- `translateText` of the main variant (`src/src/index.ts`), step for step:
protected-token early return; creation of the per-file cache object when
absent; truthy cache hit; minimum-length check; cooldown when the request
counter reached the limit (save the cache, pause, reset the counter to zero);
one backend invocation (`service text = none` models the call throwing, which
the `catch` turns into a failure-counter increment and the original text);
on success quote-normalize the result, write it to the cache, bump the request
and success counters, and save every 10th success.  Returns the produced text,
the new state, and the emitted events in order. -/
def translateTextM (cfg : Config) (service : String → Option String)
    (filename text : String) (st : TransState) : String × TransState × List Event :=
  if isProtected text then
    (text, st, [])
  else
    let st1 :=
      if (assocGet st.cache filename).isNone then
        { st with cache := st.cache ++ [(filename, [])] }
      else st
    if truthyHit (cacheGet st1.cache filename text) then
      ((cacheGet st1.cache filename text).getD "", st1, [])
    else if text.length < cfg.minStringLength then
      (text, st1, [])
    else
      let paused := decide (cfg.requestLimit ≤ st1.requestCount)
      let st2 := if paused then { st1 with requestCount := 0 } else st1
      let ev1 : List Event := if paused then [.save, .pause] else []
      match service text with
      | none =>
        (text, { st2 with errorCount := st2.errorCount + 1 }, ev1 ++ [.request text])
      | some raw =>
        let translated := replaceQuotesInText raw
        let st3 := { st2 with
          cache := cachePut st2.cache filename text translated
          requestCount := st2.requestCount + 1
          translatedCount := st2.translatedCount + 1 }
        let ev2 : List Event := if st3.translatedCount % 10 = 0 then [.save] else []
        (translated, st3, ev1 ++ [.request text] ++ ev2)

/-- The dispatcher calls the orchestrator's per-file loop makes, in fragment
order, threading the run state and concatenating the observable events. -/
def runTextsM (cfg : Config) (service : String → Option String) (filename : String) :
    List String → TransState → TransState × List Event
  | [], st => (st, [])
  | t :: ts, st =>
    let r := translateTextM cfg service filename t st
    let rest := runTextsM cfg service filename ts r.2.1
    (rest.1, r.2.2 ++ rest.2)

/-- The bounded retry loop of `src/unnamed/part_001`'s `translateText`
(`let retries = 3; while (retries > 0) { try … break } catch { retries--;
if (retries === 0) throw … } }`): `svc n` is the outcome of attempt `n`
(`none` models the backend throwing). -/
def tryAttempts (svc : Nat → Option String) : Nat → Nat → Option String
  | _, 0 => none
  | idx, retries + 1 =>
    match svc idx with
    | some v => some v
    | none => if retries = 0 then none else tryAttempts svc (idx + 1) retries

/-- `translateText` of the retry variant `src/unnamed/part_001`: the same
policy steps as the main variant, with the backend call wrapped in the
3-attempt retry loop; the exhausted loop re-throws, the outer `catch` bumps
the failure counter and returns the original text.  (This variant caches the
backend result as returned.) -/
def translateTextR (cfg : Config) (svc : Nat → Option String)
    (filename text : String) (st : TransState) : String × TransState :=
  if isProtected text then
    (text, st)
  else
    let st1 :=
      if (assocGet st.cache filename).isNone then
        { st with cache := st.cache ++ [(filename, [])] }
      else st
    if truthyHit (cacheGet st1.cache filename text) then
      ((cacheGet st1.cache filename text).getD "", st1)
    else if text.length < cfg.minStringLength then
      (text, st1)
    else
      let st2 :=
        if cfg.requestLimit ≤ st1.requestCount then { st1 with requestCount := 0 } else st1
      match tryAttempts svc 0 3 with
      | none => (text, { st2 with errorCount := st2.errorCount + 1 })
      | some translated =>
        (translated, { st2 with
          cache := cachePut st2.cache filename text translated
          requestCount := st2.requestCount + 1
          translatedCount := st2.translatedCount + 1 })

/-- The per-file fragment loop of `main`, restricted to its dispatcher calls:
each extracted fragment is translated in order, threading the run state. -/
def processTexts (cfg : Config) (svc : Nat → Option String) (filename : String) :
    List String → TransState → List String × TransState
  | [], st => ([], st)
  | t :: ts, st =>
    let r := translateTextR cfg svc filename t st
    let rest := processTexts cfg svc filename ts r.2
    (r.1 :: rest.1, rest.2)


/-! ### Cache persistence (`saveCache` / `loadCache`) -/

/-- Lower-case hex digit, for `JSON.stringify`'s `\u00XX` control escapes. -/
def hexDigit (n : Nat) : Char :=
  if n < 10 then Char.ofNat (0x30 + n) else Char.ofNat (0x61 + (n - 10))

/-- One character of a `JSON.stringify`-serialized string: backslash and
double quote get a backslash escape, control characters their standard short
or `\u00XX` form, anything else stands for itself. -/
def escChar (c : Char) : List Char :=
  if c = '"' then ['\\', '"']
  else if c = '\\' then ['\\', '\\']
  else if c = Char.ofNat 8 then ['\\', 'b']
  else if c = Char.ofNat 9 then ['\\', 't']
  else if c = Char.ofNat 10 then ['\\', 'n']
  else if c = Char.ofNat 12 then ['\\', 'f']
  else if c = Char.ofNat 13 then ['\\', 'r']
  else if c.toNat < 0x20 then
    ['\\', 'u', '0', '0', hexDigit (c.toNat / 16), hexDigit (c.toNat % 16)]
  else [c]

/-- `JSON.stringify` of a string value, quotes included. -/
def jsonQuote (s : String) : List Char :=
  '"' :: (s.data.map escChar).flatten ++ ['"']

/-- Separator-joined concatenation, the shape `JSON.stringify(·, null, 2)`
gives its pretty-printed members. -/
def joinSep (sep : List Char) : List (List Char) → List Char
  | [] => []
  | [x] => x
  | x :: y :: ys => x ++ sep ++ joinSep sep (y :: ys)

/-- One pretty-printed inner member `    "text": "translation"`. -/
def innerMemberStr (kv : String × String) : List Char :=
  ' ' :: ' ' :: ' ' :: ' ' :: jsonQuote kv.1 ++ ':' :: ' ' :: jsonQuote kv.2

/-- `JSON.stringify(m, null, 2)` of one inner (text → translation) object at
nesting depth 1. -/
def stringifyInner (m : List (String × String)) : List Char :=
  match m with
  | [] => ['{', '}']
  | _ =>
    '{' :: '\n' :: joinSep [',', '\n'] (m.map innerMemberStr) ++ ['\n', ' ', ' ', '}']

/-- One pretty-printed outer member `  "filename": { … }`. -/
def outerMemberStr (e : String × List (String × String)) : List Char :=
  ' ' :: ' ' :: jsonQuote e.1 ++ ':' :: ' ' :: stringifyInner e.2

/-- `JSON.stringify(translationCache, null, 2)`. -/
def stringifyCache (c : Cache) : List Char :=
  match c with
  | [] => ['{', '}']
  | _ => '{' :: '\n' :: joinSep [',', '\n'] (c.map outerMemberStr) ++ ['\n', '}']

/-- The `.replace(/\\"/g, '"')` post-processing step of `saveCache`
(`src/src/index.ts`): every backslash–double-quote pair becomes a bare double
quote, scanning left to right. -/
def stripQuoteEsc : List Char → List Char
  | [] => []
  | [c] => [c]
  | a :: b :: rest =>
    if a = '\\' ∧ b = '"' then '"' :: stripQuoteEsc rest
    else a :: stripQuoteEsc (b :: rest)

/-- `saveCache`: the exact text written to the store,
`JSON.stringify(translationCache, null, 2).replace(/\\"/g, '"')`. -/
def saveString (c : Cache) : String :=
  ⟨stripQuoteEsc (stringifyCache c)⟩

/-- JSON whitespace. -/
def isWsChar (c : Char) : Bool :=
  c = ' ' || c = '\n' || c = '\t' || c = '\r'

def skipWs : List Char → List Char
  | c :: cs => if isWsChar c then skipWs cs else c :: cs
  | [] => []

/-- `JSON.parse`'s short escapes (`\uXXXX` never occurs in a store this
program writes and is rejected here). -/
def unescChar (c : Char) : Option Char :=
  if c = '"' then some '"'
  else if c = '\\' then some '\\'
  else if c = '/' then some '/'
  else if c = 'n' then some (Char.ofNat 10)
  else if c = 't' then some (Char.ofNat 9)
  else if c = 'r' then some (Char.ofNat 13)
  else if c = 'b' then some (Char.ofNat 8)
  else if c = 'f' then some (Char.ofNat 12)
  else none

/-- String body after the opening quote: characters up to the closing quote,
processing escapes; `none` on an unterminated string or a bad escape. -/
def parseStringBody : List Char → Option (List Char × List Char)
  | [] => none
  | c :: rest =>
    if c = '"' then some ([], rest)
    else if c = '\\' then
      match rest with
      | [] => none
      | e :: rest2 =>
        match unescChar e with
        | none => none
        | some d =>
          match parseStringBody rest2 with
          | none => none
          | some (s, r) => some (d :: s, r)
    else
      match parseStringBody rest with
      | none => none
      | some (s, r) => some (c :: s, r)

/-- A JSON string token, leading whitespace allowed. -/
def parseString (l : List Char) : Option (String × List Char) :=
  match skipWs l with
  | [] => none
  | c :: rest =>
    if c = '"' then
      match parseStringBody rest with
      | none => none
      | some (s, r) => some (⟨s⟩, r)
    else none

/-- Members of an inner object, after its `{`; the fuel bounds the number of
members and is decremented once per member. -/
def parseInnerMembers : List Char → Nat → Option (List (String × String) × List Char)
  | _, 0 => none
  | l, fuel + 1 =>
    match parseString l with
    | none => none
    | some (k, l1) =>
      match skipWs l1 with
      | [] => none
      | c :: l2 =>
        if c = ':' then
          match parseString l2 with
          | none => none
          | some (v, l3) =>
            match skipWs l3 with
            | [] => none
            | d :: l4 =>
              if d = ',' then
                match parseInnerMembers l4 fuel with
                | none => none
                | some (ms, l5) => some ((k, v) :: ms, l5)
              else if d = '}' then some ([(k, v)], l4)
              else none
        else none

/-- An inner object `{ "text": "translation", … }`. -/
def parseInnerObj (l : List Char) (fuel : Nat) : Option (List (String × String) × List Char) :=
  match skipWs l with
  | [] => none
  | c :: l1 =>
    if c = '{' then
      match skipWs l1 with
      | [] => parseInnerMembers l1 fuel
      | d :: l2 => if d = '}' then some ([], l2) else parseInnerMembers l1 fuel
    else none

/-- Members of the outer object, after its `{`. -/
def parseOuterMembers : List Char → Nat → Option (Cache × List Char)
  | _, 0 => none
  | l, fuel + 1 =>
    match parseString l with
    | none => none
    | some (k, l1) =>
      match skipWs l1 with
      | [] => none
      | c :: l2 =>
        if c = ':' then
          match parseInnerObj l2 fuel with
          | none => none
          | some (m, l3) =>
            match skipWs l3 with
            | [] => none
            | d :: l4 =>
              if d = ',' then
                match parseOuterMembers l4 fuel with
                | none => none
                | some (es, l5) => some ((k, m) :: es, l5)
              else if d = '}' then some ([(k, m)], l4)
              else none
        else none

/-- `JSON.parse` restricted to the one shape this program's store ever holds —
an object of objects of strings — requiring full input consumption.  Anything
else (including a syntax error in a corrupted store) yields `none`, which the
loader's `catch` / shape check turns into the empty cache. -/
def parseCache (s : String) : Option Cache :=
  match skipWs s.data with
  | [] => none
  | c :: l1 =>
    if c = '{' then
      match skipWs l1 with
      | [] =>
        match parseOuterMembers l1 (s.data.length + 1) with
        | none => none
        | some (cc, rest) => if (skipWs rest).isEmpty then some cc else none
      | d :: l2 =>
        if d = '}' then (if (skipWs l2).isEmpty then some [] else none)
        else
          match parseOuterMembers l1 (s.data.length + 1) with
          | none => none
          | some (cc, rest) => if (skipWs rest).isEmpty then some cc else none
    else none

/-- `loadCache` into an empty in-memory cache: the store contents parse to the
nested mapping; a missing, corrupt or mis-shaped store leaves the cache empty
(the source only logs the error and continues). -/
def loadCacheStr (s : Option String) : Cache :=
  match s with
  | none => []
  | some str =>
    match parseCache str with
    | none => []
    | some c => c

/-- A character the serializer emits verbatim: not a double quote, not a
backslash, not a control character. -/
def cleanChar (c : Char) : Bool :=
  decide (0x20 ≤ c.toNat) && !(c == '"') && !(c == '\\')

/-- All characters of a string clean. -/
def cleanStr (s : String) : Bool := s.data.all cleanChar

/-- All keys and values of an inner object clean. -/
def cleanInner (m : List (String × String)) : Bool :=
  m.all (fun kv => cleanStr kv.1 && cleanStr kv.2)

/-- All keys and values of the whole cache clean. -/
def cleanCache (c : Cache) : Bool :=
  c.all (fun e => cleanStr e.1 && cleanInner e.2)


end Lxb

namespace Lxb

/-! ### Helper lemmas: occurrences, `bufIndexOf` -/

theorem isPrefixOf_exists :
    ∀ {s l : List Nat}, s.isPrefixOf l = true → ∃ t, s ++ t = l
  | [], l, _ => ⟨l, rfl⟩
  | a :: s, [], h => by simp [List.isPrefixOf] at h
  | a :: s, b :: l, h => by
    simp only [List.isPrefixOf, Bool.and_eq_true, beq_iff_eq] at h
    obtain ⟨t, ht⟩ := isPrefixOf_exists h.2
    exact ⟨t, by simp [h.1, ht]⟩

theorem isPrefixOf_append :
    ∀ (s t : List Nat), s.isPrefixOf (s ++ t) = true
  | [], t => by cases t <;> rfl
  | a :: s, t => by simp [List.isPrefixOf, isPrefixOf_append s t]

theorem isInfix_of_occursAt {s B : List Nat} {i : Nat} (h : occursAt s B i) :
    s <:+: B := by
  obtain ⟨t, ht⟩ := isPrefixOf_exists h
  exact ⟨B.take i, t, by rw [List.append_assoc, ht, List.take_append_drop]⟩

theorem occursAt_exists {s B : List Nat} (h : s <:+: B) :
    ∃ i, i ≤ B.length ∧ occursAt s B i := by
  obtain ⟨t, u, htu⟩ := h
  refine ⟨t.length, ?_, ?_⟩
  · rw [← htu]; simp
  · unfold occursAt
    rw [← htu, List.append_assoc, List.drop_left]
    exact isPrefixOf_append s u

theorem bufIndexOf_some_spec {B s : List Nat} {pos i : Nat}
    (h : bufIndexOf B s pos = some i) :
    pos ≤ i ∧ i ≤ B.length ∧ occursAt s B i := by
  have hp := List.find?_some h
  have hm := List.mem_of_find?_eq_some h
  simp only [Bool.and_eq_true, decide_eq_true_eq] at hp
  rw [List.mem_range] at hm
  exact ⟨hp.1, by omega, hp.2⟩

theorem bufIndexOf_none_spec {B s : List Nat} {pos : Nat}
    (h : bufIndexOf B s pos = none) :
    ∀ i, pos ≤ i → i ≤ B.length → ¬ occursAt s B i := by
  intro i hpos hi hocc
  have := List.find?_eq_none.mp h i (by rw [List.mem_range]; omega)
  simp only [Bool.and_eq_true, decide_eq_true_eq, not_and] at this
  exact this hpos hocc

theorem bufIndexOf_min {B s : List Nat} {pos i : Nat}
    (h : bufIndexOf B s pos = some i) :
    ∀ j, pos ≤ j → j < i → ¬ occursAt s B j := by
  intro j hpos hj hocc
  rw [bufIndexOf, List.find?_eq_some] at h
  obtain ⟨-, as, bs, hsplit, hmin⟩ := h
  have hlen2 : as.length < B.length + 1 := by
    have : (List.range (B.length + 1)).length = B.length + 1 := by simp
    rw [hsplit] at this; simp at this; omega
  have hasi : i = as.length := by
    have h1 : (List.range (B.length + 1))[as.length]? = some as.length :=
      List.getElem?_range hlen2
    have h2 : (List.range (B.length + 1))[as.length]? = some i := by
      rw [hsplit, List.getElem?_append_right (Nat.le_refl as.length)]
      simp
    rw [h1] at h2
    exact (Option.some_inj.mp h2).symm
  have hj_as : j ∈ as := by
    have htake : as = (List.range (B.length + 1)).take as.length := by
      rw [hsplit, List.take_left]
    rw [htake, List.take_range]
    rw [List.mem_range]
    omega
  have := hmin j hj_as
  simp only [Bool.not_eq_true', Bool.and_eq_false_iff, decide_eq_false_iff_not] at this
  rcases this with h1 | h2
  · omega
  · exact absurd h2 (by simp [occursAt] at hocc; simp [hocc])

end Lxb

namespace Lxb

/-! ### Decomposition of `replaceInBuffer` into inter-match segments -/

theorem intercalate_single (s x : List Nat) : List.intercalate s [x] = x := by
  simp [List.intercalate]

theorem intercalate_cons (s x : List Nat) {xs : List (List Nat)} (h : xs ≠ []) :
    List.intercalate s (x :: xs) = x ++ s ++ List.intercalate s xs := by
  cases xs with
  | nil => exact absurd rfl h
  | cons y ys => simp [List.intercalate, List.intersperse]

theorem chunksFromAux_ne_nil (B s : List Nat) :
    ∀ fuel pos, chunksFromAux B s fuel pos ≠ [] := by
  intro fuel pos
  cases fuel with
  | zero => simp [chunksFromAux]
  | succ fuel =>
    simp only [chunksFromAux]
    by_cases hlt : pos < B.length
    · simp only [if_pos hlt]
      cases bufIndexOf B s pos <;> simp
    · simp [if_neg hlt]


theorem replaceAux_none {B s r : List Nat} {fuel pos : Nat}
    (hlt : pos < B.length) (hidx : bufIndexOf B s pos = none) :
    replaceInBufferAux B s r (fuel + 1) pos = B.drop pos := by
  simp [replaceInBufferAux, if_pos hlt, hidx]

theorem replaceAux_some {B s r : List Nat} {fuel pos i : Nat}
    (hlt : pos < B.length) (hidx : bufIndexOf B s pos = some i) :
    replaceInBufferAux B s r (fuel + 1) pos
      = (B.drop pos).take (i - pos) ++ r ++ replaceInBufferAux B s r fuel (i + s.length) := by
  simp [replaceInBufferAux, if_pos hlt, hidx]

theorem replaceAux_stop {B s r : List Nat} {fuel pos : Nat} (hge : ¬ pos < B.length) :
    replaceInBufferAux B s r (fuel + 1) pos = [] := by
  simp [replaceInBufferAux, if_neg hge]

theorem chunksAux_none {B s : List Nat} {fuel pos : Nat}
    (hlt : pos < B.length) (hidx : bufIndexOf B s pos = none) :
    chunksFromAux B s (fuel + 1) pos = [B.drop pos] := by
  simp [chunksFromAux, if_pos hlt, hidx]

theorem chunksAux_some {B s : List Nat} {fuel pos i : Nat}
    (hlt : pos < B.length) (hidx : bufIndexOf B s pos = some i) :
    chunksFromAux B s (fuel + 1) pos
      = (B.drop pos).take (i - pos) :: chunksFromAux B s fuel (i + s.length) := by
  simp [chunksFromAux, if_pos hlt, hidx]

theorem chunksAux_stop {B s : List Nat} {fuel pos : Nat} (hge : ¬ pos < B.length) :
    chunksFromAux B s (fuel + 1) pos = [[]] := by
  simp [chunksFromAux, if_neg hge]

theorem replaceAux_intercalate (B s r : List Nat) :
    ∀ fuel pos,
      replaceInBufferAux B s r fuel pos = List.intercalate r (chunksFromAux B s fuel pos) := by
  intro fuel
  induction fuel with
  | zero => intro pos; simp [replaceInBufferAux, chunksFromAux, intercalate_single]
  | succ fuel ih =>
    intro pos
    by_cases hlt : pos < B.length
    · cases hidx : bufIndexOf B s pos with
      | none => rw [replaceAux_none hlt hidx, chunksAux_none hlt hidx, intercalate_single]
      | some i =>
        rw [replaceAux_some hlt hidx, chunksAux_some hlt hidx,
          intercalate_cons r _ (chunksFromAux_ne_nil B s fuel (i + s.length)), ih]
    · rw [replaceAux_stop hlt, chunksAux_stop hlt, intercalate_single]

theorem drop_intercalate_chunksAux (B s : List Nat) :
    ∀ fuel pos, B.drop pos = List.intercalate s (chunksFromAux B s fuel pos) := by
  intro fuel
  induction fuel with
  | zero => intro pos; simp [chunksFromAux, intercalate_single]
  | succ fuel ih =>
    intro pos
    by_cases hlt : pos < B.length
    · cases hidx : bufIndexOf B s pos with
      | none => rw [chunksAux_none hlt hidx, intercalate_single]
      | some i =>
        obtain ⟨hpi, hil, hocc⟩ := bufIndexOf_some_spec hidx
        rw [chunksAux_some hlt hidx,
          intercalate_cons s _ (chunksFromAux_ne_nil B s fuel (i + s.length)), ← ih]
        obtain ⟨t, ht⟩ := isPrefixOf_exists hocc
        have hdd : (B.drop pos).drop (i - pos) = B.drop i := by
          rw [List.drop_drop]
          rw [Nat.add_sub_cancel' hpi]
        have htail : B.drop (i + s.length) = t := by
          rw [← List.drop_drop, ← ht, List.drop_left]
        calc B.drop pos
            = (B.drop pos).take (i - pos) ++ (B.drop pos).drop (i - pos) :=
              (List.take_append_drop _ _).symm
          _ = (B.drop pos).take (i - pos) ++ (s ++ B.drop (i + s.length)) := by
              rw [hdd, htail, ht]
          _ = (B.drop pos).take (i - pos) ++ s ++ B.drop (i + s.length) := by
              rw [List.append_assoc]
    · rw [chunksAux_stop hlt, intercalate_single]
      have hle : B.length ≤ pos := by omega
      exact List.drop_eq_nil_of_le hle

theorem intercalate_length (x : List Nat) :
    ∀ l : List (List Nat), l ≠ [] →
      (List.intercalate x l).length = (l.map List.length).sum + x.length * (l.length - 1)
  | [y], _ => by simp [intercalate_single]
  | y :: z :: zs, _ => by
    have ih := intercalate_length x (z :: zs) (by simp)
    rw [intercalate_cons x y (by simp)]
    simp only [List.length_append, ih, List.map_cons, List.sum_cons, List.length_cons,
      Nat.add_sub_cancel]
    ring

theorem chunksFromAux_no_occ {B s : List Nat} (hs : s ≠ []) :
    ∀ fuel pos, pos ≤ B.length → B.length + 1 ≤ fuel + pos →
      ∀ c ∈ chunksFromAux B s fuel pos, ¬ s <:+: c := by
  have hslen : 1 ≤ s.length := by
    cases s with
    | nil => exact absurd rfl hs
    | cons _ _ => simp
  intro fuel
  induction fuel with
  | zero => intro pos h1 h2; omega
  | succ fuel ih =>
    intro pos hpos hfuel c hc hinf
    by_cases hlt : pos < B.length
    · cases hidx : bufIndexOf B s pos with
      | none =>
        rw [chunksAux_none hlt hidx] at hc
        simp only [List.mem_singleton] at hc
        subst hc
        obtain ⟨t, u, htu⟩ := hinf
        have hdlen : t.length + s.length + u.length = B.length - pos := by
          have := congrArg List.length htu
          simp at this
          omega
        have hocc : occursAt s B (pos + t.length) := by
          unfold occursAt
          have h1 : B.drop (pos + t.length) = (B.drop pos).drop t.length := by
            rw [List.drop_drop]
          rw [h1, ← htu, List.append_assoc, List.drop_left]
          exact isPrefixOf_append s u
        exact bufIndexOf_none_spec hidx (pos + t.length) (by omega) (by omega) hocc
      | some i =>
        obtain ⟨hpi, hil, hocc0⟩ := bufIndexOf_some_spec hidx
        rw [chunksAux_some hlt hidx] at hc
        simp only [List.mem_cons] at hc
        cases hc with
        | inl hc =>
          subst hc
          obtain ⟨t, u, htu⟩ := hinf
          have hclen : t.length + s.length + u.length ≤ i - pos := by
            have := congrArg List.length htu
            simp at this
            omega
          have hocc : occursAt s B (pos + t.length) := by
            unfold occursAt
            have h1 : B.drop (pos + t.length) = (B.drop pos).drop t.length := by
              rw [List.drop_drop]
            have h2 : B.drop pos
                = ((B.drop pos).take (i - pos)) ++ (B.drop pos).drop (i - pos) :=
              (List.take_append_drop _ _).symm
            have h3 : (B.drop pos).drop t.length
                = s ++ (u ++ (B.drop pos).drop (i - pos)) := by
              conv_lhs => rw [h2, ← htu]
              rw [show t ++ s ++ u ++ (B.drop pos).drop (i - pos)
                    = t ++ (s ++ (u ++ (B.drop pos).drop (i - pos))) by simp [List.append_assoc]]
              rw [List.drop_left]
            rw [h1, h3]
            exact isPrefixOf_append s _
          exact bufIndexOf_min hidx (pos + t.length) (by omega) (by omega) hocc
        | inr hc =>
          have hnext : i + s.length ≤ B.length := by
            obtain ⟨t, ht⟩ := isPrefixOf_exists hocc0
            have := congrArg List.length ht
            simp at this
            omega
          exact ih (i + s.length) hnext (by omega) c hc hinf
    · rw [chunksAux_stop hlt] at hc
      simp only [List.mem_singleton] at hc
      subst hc
      obtain ⟨t, u, htu⟩ := hinf
      rw [List.append_eq_nil] at htu
      rcases htu with ⟨h1, -⟩
      rw [List.append_eq_nil] at h1
      exact hs h1.2

end Lxb

namespace Lxb

/-! ### Claim C3: substitution is the identity when the search text does not occur -/

/-- C3: for every buffer `B` and byte-encoded texts `s`, `r`, if `s` does not
occur anywhere in `B` then `substitute(B, s, r)` (the `replaceInBuffer` loop)
returns a buffer byte-identical to `B`. -/
theorem replaceInBuffer_no_occurrence_id (B s r : List Nat) (h : ¬ s <:+: B) :
    replaceInBuffer B s r = B := by
  unfold replaceInBuffer
  by_cases hlt : 0 < B.length
  · cases hidx : bufIndexOf B s 0 with
    | none => rw [replaceAux_none hlt hidx]; exact List.drop_zero B
    | some i =>
      obtain ⟨-, -, hocc⟩ := bufIndexOf_some_spec hidx
      exact absurd (isInfix_of_occursAt hocc) h
  · have hB : B = [] := by
      cases B with
      | nil => rfl
      | cons a B => simp at hlt
    subst hB
    rw [replaceAux_stop hlt]

theorem replaceInBuffer_no_occurrence_id_witness :
    ¬ (([9] : List Nat) <:+: [1, 2, 3]) ∧ replaceInBuffer [1, 2, 3] [9] [7] = [1, 2, 3] :=
  ⟨by decide, replaceInBuffer_no_occurrence_id [1, 2, 3] [9] [7] (by decide)⟩

/-! ### Claim C4: substitution replaces every left-to-right occurrence -/

/-- C4: for a non-empty search text `s`, the buffer decomposes as
`seg₀ ++ s ++ seg₁ ++ … ++ s ++ segₖ` along the non-overlapping occurrences
the loop finds left to right (resuming each search at the end of the previous
match), the output is the same segments joined with `r` instead, the output
length is `len(B) + k * (len(r) - len(s))` with `k` the number of occurrences,
and no segment contains a further occurrence of `s` — so all bytes outside the
matched spans are unchanged and in the same relative order. -/
theorem replaceInBuffer_replaces_all (B s r : List Nat) (hs : s ≠ []) :
    B = List.intercalate s (chunks B s) ∧
    replaceInBuffer B s r = List.intercalate r (chunks B s) ∧
    ((replaceInBuffer B s r).length : Int)
      = (B.length : Int)
        + (((chunks B s).length - 1 : Nat) : Int)
          * ((r.length : Int) - (s.length : Int)) ∧
    ∀ c ∈ chunks B s, ¬ s <:+: c := by
  have h1 : B = List.intercalate s (chunks B s) := by
    have := drop_intercalate_chunksAux B s (B.length + 1) 0
    simpa using this
  have h2 : replaceInBuffer B s r = List.intercalate r (chunks B s) :=
    replaceAux_intercalate B s r (B.length + 1) 0
  have hnn : chunks B s ≠ [] := chunksFromAux_ne_nil B s (B.length + 1) 0
  have hk : 0 < (chunks B s).length := List.length_pos.mpr hnn
  refine ⟨h1, h2, ?_, chunksFromAux_no_occ hs (B.length + 1) 0 (by omega) (by omega)⟩
  have e1 : (replaceInBuffer B s r).length
      = ((chunks B s).map List.length).sum + r.length * ((chunks B s).length - 1) := by
    rw [h2]; exact intercalate_length r _ hnn
  have e2 : B.length
      = ((chunks B s).map List.length).sum + s.length * ((chunks B s).length - 1) := by
    conv_lhs => rw [h1]
    exact intercalate_length s _ hnn
  rw [e1, e2]
  have hKcast : (((chunks B s).length - 1 : Nat) : Int) = ((chunks B s).length : Int) - 1 := by
    omega
  push_cast [hKcast]
  ring

theorem replaceInBuffer_replaces_all_witness :
    (([1, 2] : List Nat) ≠ []) ∧
    (([0, 1, 2, 3, 1, 2] : List Nat)
        = List.intercalate [1, 2] (chunks [0, 1, 2, 3, 1, 2] [1, 2]) ∧
      replaceInBuffer [0, 1, 2, 3, 1, 2] [1, 2] [9]
        = List.intercalate [9] (chunks [0, 1, 2, 3, 1, 2] [1, 2]) ∧
      ((replaceInBuffer [0, 1, 2, 3, 1, 2] [1, 2] [9]).length : Int)
        = (([0, 1, 2, 3, 1, 2] : List Nat).length : Int)
          + (((chunks [0, 1, 2, 3, 1, 2] [1, 2]).length - 1 : Nat) : Int)
            * ((([9] : List Nat).length : Int) - (([1, 2] : List Nat).length : Int)) ∧
      ∀ c ∈ chunks [0, 1, 2, 3, 1, 2] [1, 2], ¬ ([1, 2] : List Nat) <:+: c) :=
  ⟨by decide, replaceInBuffer_replaces_all [0, 1, 2, 3, 1, 2] [1, 2] [9] (by decide)⟩

/-! ### Claim C1: scanning `"Press $BUT_A$ to jump"` -/

/-- C1: scanning the ASCII bytes of `"Press $BUT_A$ to jump"` does NOT yield
the fragment set `{"Press ", "$BUT_A$", " to jump"}`: because the scanner never
flushes the pending accumulator when a `$` block opens, the plain prefix
`"Press "` leaks into the protected token, producing the single fragment
`"$Press BUT_A$"`; and because nothing is flushed at end of buffer,
`" to jump"` is dropped.  The bytes below are `P r e s s ␣ $ B U T _ A $ ␣ t o
␣ j u m p`; the result equals `[$ P r e s s ␣ B U T _ A $]`. -/
theorem extractStrings_press_dollar_leak :
    extractStrings [0x50, 0x72, 0x65, 0x73, 0x73, 0x20, 0x24, 0x42, 0x55, 0x54, 0x5f, 0x41,
        0x24, 0x20, 0x74, 0x6f, 0x20, 0x6a, 0x75, 0x6d, 0x70]
      = [[0x24, 0x50, 0x72, 0x65, 0x73, 0x73, 0x20, 0x42, 0x55, 0x54, 0x5f, 0x41, 0x24]] ∧
    [0x50, 0x72, 0x65, 0x73, 0x73, 0x20]
        ∉ extractStrings [0x50, 0x72, 0x65, 0x73, 0x73, 0x20, 0x24, 0x42, 0x55, 0x54, 0x5f,
          0x41, 0x24, 0x20, 0x74, 0x6f, 0x20, 0x6a, 0x75, 0x6d, 0x70] ∧
    [0x24, 0x42, 0x55, 0x54, 0x5f, 0x41, 0x24]
        ∉ extractStrings [0x50, 0x72, 0x65, 0x73, 0x73, 0x20, 0x24, 0x42, 0x55, 0x54, 0x5f,
          0x41, 0x24, 0x20, 0x74, 0x6f, 0x20, 0x6a, 0x75, 0x6d, 0x70] ∧
    [0x20, 0x74, 0x6f, 0x20, 0x6a, 0x75, 0x6d, 0x70]
        ∉ extractStrings [0x50, 0x72, 0x65, 0x73, 0x73, 0x20, 0x24, 0x42, 0x55, 0x54, 0x5f,
          0x41, 0x24, 0x20, 0x74, 0x6f, 0x20, 0x6a, 0x75, 0x6d, 0x70] := by
  decide

/-! ### Claim C8: end-of-buffer handling of the pending accumulator -/

theorem extractStringsGo_printable_run {P : List Nat}
    (h : ∀ b ∈ P, isPrintable b = true ∧ b ≠ 0x24) :
    ∀ rest cur acc,
      extractStringsGo (P ++ rest) cur false acc = extractStringsGo rest (cur ++ P) false acc := by
  induction P with
  | nil => intro rest cur acc; simp
  | cons b P ih =>
    intro rest cur acc
    have hb := h b (by simp)
    have hP : ∀ x ∈ P, isPrintable x = true ∧ x ≠ 0x24 := fun x hx => h x (by simp [hx])
    simp only [List.cons_append, extractStringsGo]
    rw [if_neg hb.2, if_neg (by simp : ¬ (false = true)), if_pos hb.1]
    have hrec := ih hP rest (cur ++ [b]) acc
    simpa using hrec

/-- C8 (counterexample): the buffer `"abc"` ends with the pending accumulator
holding `abc`, which passes the length (≥ 3) and alphabetic tests — yet the
scan returns the empty set, because the source drops the accumulator at end of
buffer instead of evaluating it. -/
theorem extractStrings_trailing_run_dropped :
    extractStrings [0x61, 0x62, 0x63] = [] ∧
    3 ≤ ([0x61, 0x62, 0x63] : List Nat).length ∧
    hasAlpha [0x61, 0x62, 0x63] = true := by
  decide

/-- C8 (amended): when the scan reaches the end of the buffer, pending
accumulator content is discarded, never evaluated or added; the
length/alphabetic test fires only at an in-buffer terminator byte.  A buffer
that is one unterminated printable run yields nothing, while the same run
followed by a terminator byte yields exactly the run when it passes the test. -/
theorem extractStrings_end_discard (P : List Nat)
    (h : ∀ b ∈ P, isPrintable b = true ∧ b ≠ 0x24) :
    extractStrings P = [] ∧
    extractStrings (P ++ [0x00])
      = (if 3 ≤ P.length ∧ hasAlpha P = true then [P] else []) := by
  constructor
  · have := extractStringsGo_printable_run h [] [] []
    simpa [extractStrings, extractStringsGo] using this
  · unfold extractStrings
    rw [extractStringsGo_printable_run h [0x00] [] []]
    simp only [List.nil_append]
    by_cases h3 : 3 ≤ P.length
    · by_cases ha : hasAlpha P = true
      · simp [extractStringsGo, isPrintable, if_pos h3, ha, setAdd]
      · simp [extractStringsGo, isPrintable, if_pos h3, ha, h3]
    · simp [extractStringsGo, isPrintable, h3]

theorem extractStrings_end_discard_witness :
    (∀ b ∈ ([0x78, 0x79, 0x7a] : List Nat), isPrintable b = true ∧ b ≠ 0x24) ∧
    (extractStrings [0x78, 0x79, 0x7a] = [] ∧
      extractStrings ([0x78, 0x79, 0x7a] ++ [0x00])
        = (if 3 ≤ ([0x78, 0x79, 0x7a] : List Nat).length ∧ hasAlpha [0x78, 0x79, 0x7a] = true
            then [[0x78, 0x79, 0x7a]] else [])) :=
  ⟨by decide, extractStrings_end_discard _ (by decide)⟩

/-! ### Claim C10: the main variant matches quote-normalized text -/

theorem quote_not_mem_replaceQuotesBytes (l : List Nat) : 0x22 ∉ replaceQuotesBytes l := by
  intro hmem
  rw [replaceQuotesBytes, List.mem_map] at hmem
  obtain ⟨a, -, ha⟩ := hmem
  by_cases h : a = 0x22 <;> simp [h] at ha

/-- C10: the main variant's `replaceInBuffer` searches for and inserts the
quote-normalized forms of its arguments: a buffer equal to a search text that
contains a double quote is never matched (the call is a no-op on it), while
some buffer in which the search text does not occur at all is still modified,
because its apostrophe-normalized form does occur. -/
theorem replaceInBufferMain_quote_normalization :
    (∀ s r : List Nat, 0x22 ∈ s → replaceInBufferMain s s r = s) ∧
    (∃ B s r : List Nat, ¬ s <:+: B ∧ replaceInBufferMain B s r ≠ B) := by
  constructor
  · intro s r hq
    have hs : s ≠ [] := by
      intro h; rw [h] at hq; simp at hq
    have hlt : 0 < s.length := List.length_pos.mpr hs
    have hnone : bufIndexOf s (replaceQuotesBytes s) 0 = none := by
      cases hidx : bufIndexOf s (replaceQuotesBytes s) 0 with
      | none => rfl
      | some i =>
        exfalso
        obtain ⟨-, -, hocc⟩ := bufIndexOf_some_spec hidx
        obtain ⟨t, ht⟩ := isPrefixOf_exists hocc
        have hlen : (replaceQuotesBytes s).length = s.length := by
          simp [replaceQuotesBytes]
        have hlens : (s.drop i).length = s.length - i := List.length_drop i s
        have hi0 : i = 0 ∧ t = [] := by
          have := congrArg List.length ht
          simp [hlen] at this
          constructor
          · omega
          · have : t.length = 0 := by omega
            exact List.eq_nil_of_length_eq_zero this
        obtain ⟨hi, htnil⟩ := hi0
        subst hi; subst htnil
        rw [List.append_nil, List.drop_zero] at ht
        exact quote_not_mem_replaceQuotesBytes s (by rw [ht]; exact hq)
    unfold replaceInBufferMain replaceInBuffer
    rw [replaceAux_none hlt hnone]
    exact List.drop_zero s
  · exact ⟨[0x61, 0x27, 0x62], [0x61, 0x22, 0x62], [0x78], by decide, by decide⟩

theorem replaceInBufferMain_quote_normalization_witness :
    (0x22 ∈ ([0x61, 0x22, 0x62] : List Nat)) ∧
    replaceInBufferMain [0x61, 0x22, 0x62] [0x61, 0x22, 0x62] [0x32] = [0x61, 0x22, 0x62] :=
  ⟨by decide, replaceInBufferMain_quote_normalization.1 _ _ (by decide)⟩

end Lxb

namespace Lxb

/-! ### Dispatcher lemmas and claims C2, C9, C6, C5 -/

theorem assocGet_append_of_none {α : Type} {c : List (String × α)} {f : String} (m : α)
    (h : assocGet c f = none) :
    assocGet (c ++ [(f, m)]) f = some m := by
  induction c with
  | nil => simp [assocGet]
  | cons kv rest ih =>
    obtain ⟨k, v⟩ := kv
    by_cases hk : k = f
    · simp [assocGet, hk] at h
    · simp only [assocGet, if_neg hk] at h ⊢
      exact ih h

theorem cacheGet_ensure (c : Cache) (f t : String) :
    cacheGet (if (assocGet c f).isNone then c ++ [(f, [])] else c) f t = cacheGet c f t := by
  cases h : assocGet c f with
  | none =>
    simp only [h, Option.isNone_none, if_pos]
    rw [cacheGet, assocGet_append_of_none [] h, cacheGet, h]
    rfl
  | some m => simp [h]

/-- C2: for every configuration, backend, source identifier, cache and counter
state, `translateText` on a text that begins and ends with the `$` delimiter
returns the text itself, with the state (cache and all three counters)
untouched and no observable action — no cache lookup, no save, no pause, no
backend request. -/
theorem translateText_protected_id (cfg : Config) (service : String → Option String)
    (filename text : String) (st : TransState)
    (h : isProtected text = true) :
    translateTextM cfg service filename text st = (text, st, []) := by
  unfold translateTextM
  rw [h]
  simp

theorem translateText_protected_id_witness :
    (isProtected "$BUT_A$" = true) ∧
    translateTextM ⟨3, 50⟩ (fun t => some t) "file.lxb" "$BUT_A$" ⟨[], 0, 0, 0⟩
      = ("$BUT_A$", ⟨[], 0, 0, 0⟩, []) :=
  ⟨by decide,
    translateText_protected_id ⟨3, 50⟩ (fun t => some t) "file.lxb" "$BUT_A$" ⟨[], 0, 0, 0⟩
      (by decide)⟩

/-- C9 (counterexample): the cache lookup precedes the minimum-length check,
so a non-protected text of length 2 < 3 that is cached with a non-empty value
is returned translated, not unchanged — refuting the claim that short texts
always come back unchanged. -/
theorem translateText_short_cached_counterexample :
    isProtected "ab" = false ∧
    "ab".length < 3 ∧
    (translateTextM ⟨3, 50⟩ (fun _ => none) "f" "ab"
        ⟨[("f", [("ab", "xy")])], 0, 0, 0⟩).1 ≠ "ab" := by
  refine ⟨by decide, by decide, ?_⟩
  decide

/-- C9 (amended): for every non-protected text shorter than the configured
minimum that is NOT cached with a non-empty value, `translateText` returns the
text unchanged, issues no backend request, emits no action at all, and leaves
every counter unchanged (the cache may gain an empty per-file object); the
cache lookup precedes the length check, so a cached short text instead returns
its cached translation. -/
theorem translateText_short_uncached_id (cfg : Config) (service : String → Option String)
    (filename text : String) (st : TransState)
    (hp : isProtected text = false)
    (hm : truthyHit (cacheGet st.cache filename text) = false)
    (hl : text.length < cfg.minStringLength) :
    (translateTextM cfg service filename text st).1 = text ∧
    (translateTextM cfg service filename text st).2.1.requestCount = st.requestCount ∧
    (translateTextM cfg service filename text st).2.1.translatedCount = st.translatedCount ∧
    (translateTextM cfg service filename text st).2.1.errorCount = st.errorCount ∧
    (translateTextM cfg service filename text st).2.2 = [] := by
  by_cases h : (assocGet st.cache filename).isNone
  · have hnone : assocGet st.cache filename = none := by
      cases hx : assocGet st.cache filename with
      | none => rfl
      | some m => rw [hx] at h; simp at h
    have hcg : cacheGet (st.cache ++ [(filename, [])]) filename text = none := by
      rw [cacheGet, assocGet_append_of_none ([] : List (String × String)) hnone]
      rfl
    simp [translateTextM, hp, h, hcg, truthyHit, hl]
  · simp [translateTextM, hp, h, hm, hl]

theorem translateText_short_uncached_id_witness :
    isProtected "ab" = false ∧
    truthyHit (cacheGet ([] : Cache) "f" "ab") = false ∧
    "ab".length < 3 ∧
    ((translateTextM ⟨3, 50⟩ (fun _ => none) "f" "ab" ⟨[], 0, 0, 0⟩).1 = "ab" ∧
      (translateTextM ⟨3, 50⟩ (fun _ => none) "f" "ab" ⟨[], 0, 0, 0⟩).2.1.requestCount = 0 ∧
      (translateTextM ⟨3, 50⟩ (fun _ => none) "f" "ab" ⟨[], 0, 0, 0⟩).2.1.translatedCount = 0 ∧
      (translateTextM ⟨3, 50⟩ (fun _ => none) "f" "ab" ⟨[], 0, 0, 0⟩).2.1.errorCount = 0 ∧
      (translateTextM ⟨3, 50⟩ (fun _ => none) "f" "ab" ⟨[], 0, 0, 0⟩).2.2 = []) :=
  ⟨by decide, by decide, by decide,
    translateText_short_uncached_id ⟨3, 50⟩ (fun _ => none) "f" "ab" ⟨[], 0, 0, 0⟩
      (by decide) (by decide) (by decide)⟩

end Lxb

namespace Lxb

/-- C6: with `requestLimit = 2`, an empty cache and zeroed counters, three
distinct non-protected fragments of admissible length produce exactly the
action trace `[request t1, request t2, save, pause, request t3]` under any
always-succeeding backend: exactly one cooldown pause, after the second and
before the third backend invocation, with the cache saved at the start of the
pause; and the request counter ends at 1, reflecting the reset to zero before
the third request. -/
theorem translateText_rate_limit_trace (f : String → String) (filename t1 t2 t3 : String)
    (hp1 : isProtected t1 = false) (hp2 : isProtected t2 = false)
    (hp3 : isProtected t3 = false)
    (hl1 : 3 ≤ t1.length) (hl2 : 3 ≤ t2.length) (hl3 : 3 ≤ t3.length)
    (h12 : t1 ≠ t2) (h13 : t1 ≠ t3) (h23 : t2 ≠ t3) :
    (runTextsM ⟨3, 2⟩ (fun t => some (f t)) filename [t1, t2, t3] ⟨[], 0, 0, 0⟩).2
      = [Event.request t1, Event.request t2, Event.save, Event.pause, Event.request t3] ∧
    (runTextsM ⟨3, 2⟩ (fun t => some (f t)) filename [t1, t2, t3] ⟨[], 0, 0, 0⟩).1.requestCount
      = 1 := by
  have hl1' : ¬ t1.length < 3 := by omega
  have hl2' : ¬ t2.length < 3 := by omega
  have hl3' : ¬ t3.length < 3 := by omega
  have e1 : translateTextM ⟨3, 2⟩ (fun t => some (f t)) filename t1 ⟨[], 0, 0, 0⟩
      = (replaceQuotesInText (f t1),
          ⟨[(filename, [(t1, replaceQuotesInText (f t1))])], 1, 1, 0⟩,
          [Event.request t1]) := by
    simp [translateTextM, hp1, hl1', assocGet, cacheGet, truthyHit, cachePut, assocPut]
  have e2 : translateTextM ⟨3, 2⟩ (fun t => some (f t)) filename t2
        ⟨[(filename, [(t1, replaceQuotesInText (f t1))])], 1, 1, 0⟩
      = (replaceQuotesInText (f t2),
          ⟨[(filename, [(t1, replaceQuotesInText (f t1)),
              (t2, replaceQuotesInText (f t2))])], 2, 2, 0⟩,
          [Event.request t2]) := by
    simp [translateTextM, hp2, hl2', assocGet, cacheGet, truthyHit, cachePut, assocPut, h12]
  have e3 : translateTextM ⟨3, 2⟩ (fun t => some (f t)) filename t3
        ⟨[(filename, [(t1, replaceQuotesInText (f t1)),
            (t2, replaceQuotesInText (f t2))])], 2, 2, 0⟩
      = (replaceQuotesInText (f t3),
          ⟨[(filename, [(t1, replaceQuotesInText (f t1)),
              (t2, replaceQuotesInText (f t2)),
              (t3, replaceQuotesInText (f t3))])], 1, 3, 0⟩,
          [Event.save, Event.pause, Event.request t3]) := by
    simp [translateTextM, hp3, hl3', assocGet, cacheGet, truthyHit, cachePut, assocPut,
      h13, h23]
  constructor <;> simp [runTextsM, e1, e2, e3]

theorem translateText_rate_limit_trace_witness :
    isProtected "abc" = false ∧ isProtected "bcd" = false ∧ isProtected "cde" = false ∧
    3 ≤ "abc".length ∧ 3 ≤ "bcd".length ∧ 3 ≤ "cde".length ∧
    ("abc" : String) ≠ "bcd" ∧ ("abc" : String) ≠ "cde" ∧ ("bcd" : String) ≠ "cde" ∧
    ((runTextsM ⟨3, 2⟩ (fun t => some t) "g.lxb" ["abc", "bcd", "cde"] ⟨[], 0, 0, 0⟩).2
        = [Event.request "abc", Event.request "bcd", Event.save, Event.pause,
            Event.request "cde"] ∧
      (runTextsM ⟨3, 2⟩ (fun t => some t) "g.lxb"
          ["abc", "bcd", "cde"] ⟨[], 0, 0, 0⟩).1.requestCount = 1) :=
  ⟨by decide, by decide, by decide, by decide, by decide, by decide,
    by decide, by decide, by decide,
    translateText_rate_limit_trace (fun t => t) "g.lxb" "abc" "bcd" "cde"
      (by decide) (by decide) (by decide) (by decide) (by decide) (by decide)
      (by decide) (by decide) (by decide)⟩

theorem processTexts_length (cfg : Config) (svc : Nat → Option String) (filename : String) :
    ∀ (ts : List String) (st : TransState),
      (processTexts cfg svc filename ts st).1.length = ts.length := by
  intro ts
  induction ts with
  | nil => intro st; rfl
  | cons t ts ih => intro st; simp [processTexts, ih]

/-- C5: the dispatcher is a total function — it never raises to its caller —
and when the backend throws on all 3 retry attempts for a novel, non-protected
fragment of admissible length, it returns the original text unchanged,
increments the failure counter by exactly 1, leaves the success counter
unchanged, and the per-file loop still processes every following fragment. -/
theorem translateText_failure_fallback (cfg : Config) (svc : Nat → Option String)
    (filename text : String) (st : TransState)
    (hp : isProtected text = false)
    (hm : truthyHit (cacheGet st.cache filename text) = false)
    (hl : ¬ text.length < cfg.minStringLength)
    (hf0 : svc 0 = none) (hf1 : svc 1 = none) (hf2 : svc 2 = none) :
    (translateTextR cfg svc filename text st).1 = text ∧
    (translateTextR cfg svc filename text st).2.errorCount = st.errorCount + 1 ∧
    (translateTextR cfg svc filename text st).2.translatedCount = st.translatedCount ∧
    ∀ ts : List String,
      (processTexts cfg svc filename ts (translateTextR cfg svc filename text st).2).1.length
        = ts.length := by
  have htry : tryAttempts svc 0 3 = none := by
    simp [tryAttempts, hf0, hf1, hf2]
  by_cases h : (assocGet st.cache filename).isNone
  · have hnone : assocGet st.cache filename = none := by
      cases hx : assocGet st.cache filename with
      | none => rfl
      | some m => rw [hx] at h; simp at h
    have hcg : cacheGet (st.cache ++ [(filename, [])]) filename text = none := by
      rw [cacheGet, assocGet_append_of_none ([] : List (String × String)) hnone]
      rfl
    simp [translateTextR, hp, h, hcg, truthyHit, hl, htry, processTexts_length,
      apply_ite TransState.errorCount, apply_ite TransState.translatedCount]
  · simp [translateTextR, hp, h, hm, hl, htry, processTexts_length,
      apply_ite TransState.errorCount, apply_ite TransState.translatedCount]

theorem translateText_failure_fallback_witness :
    isProtected "Continue" = false ∧
    truthyHit (cacheGet ([] : Cache) "f" "Continue") = false ∧
    ¬ "Continue".length < 3 ∧
    ((translateTextR ⟨3, 50⟩ (fun _ => none) "f" "Continue" ⟨[], 0, 0, 0⟩).1 = "Continue" ∧
      (translateTextR ⟨3, 50⟩ (fun _ => none) "f" "Continue" ⟨[], 0, 0, 0⟩).2.errorCount
        = 0 + 1 ∧
      (translateTextR ⟨3, 50⟩ (fun _ => none) "f" "Continue" ⟨[], 0, 0, 0⟩).2.translatedCount
        = 0 ∧
      (processTexts ⟨3, 50⟩ (fun _ => none) "f" ["abc", "de"]
          (translateTextR ⟨3, 50⟩ (fun _ => none) "f" "Continue" ⟨[], 0, 0, 0⟩).2).1.length
        = 2) :=
  have h := translateText_failure_fallback ⟨3, 50⟩ (fun _ => none) "f" "Continue" ⟨[], 0, 0, 0⟩
    (by decide) (by decide) (by decide) rfl rfl rfl
  ⟨by decide, by decide, by decide, h.1, h.2.1, h.2.2.1, h.2.2.2 ["abc", "de"]⟩

end Lxb

namespace Lxb

/-! ### Serializer/parser round trip on clean caches -/

theorem cleanChar_spec {c : Char} (h : cleanChar c = true) :
    0x20 ≤ c.toNat ∧ c ≠ '"' ∧ c ≠ '\\' := by
  simp [cleanChar] at h
  exact ⟨h.1.1, h.1.2, h.2⟩

theorem escChar_clean {c : Char} (h : cleanChar c = true) : escChar c = [c] := by
  obtain ⟨hge, hq, hb⟩ := cleanChar_spec h
  have h8 : c ≠ Char.ofNat 8 := fun he => by
    have := congrArg Char.toNat he
    rw [show (Char.ofNat 8).toNat = 8 by decide] at this
    omega
  have h9 : c ≠ Char.ofNat 9 := fun he => by
    have := congrArg Char.toNat he
    rw [show (Char.ofNat 9).toNat = 9 by decide] at this
    omega
  have h10 : c ≠ Char.ofNat 10 := fun he => by
    have := congrArg Char.toNat he
    rw [show (Char.ofNat 10).toNat = 10 by decide] at this
    omega
  have h12 : c ≠ Char.ofNat 12 := fun he => by
    have := congrArg Char.toNat he
    rw [show (Char.ofNat 12).toNat = 12 by decide] at this
    omega
  have h13 : c ≠ Char.ofNat 13 := fun he => by
    have := congrArg Char.toNat he
    rw [show (Char.ofNat 13).toNat = 13 by decide] at this
    omega
  have hlt : ¬ c.toNat < 0x20 := by omega
  rw [escChar, if_neg hq, if_neg hb, if_neg h8, if_neg h9, if_neg h10, if_neg h12,
    if_neg h13, if_neg hlt]

theorem flatten_escChar {l : List Char} (h : ∀ c ∈ l, cleanChar c = true) :
    (l.map escChar).flatten = l := by
  induction l with
  | nil => rfl
  | cons c l ih =>
    have hc := h c (by simp)
    have hl : ∀ x ∈ l, cleanChar x = true := fun x hx => h x (by simp [hx])
    simp [escChar_clean hc, ih hl]

theorem jsonQuote_clean {s : String} (h : cleanStr s = true) :
    jsonQuote s = '"' :: s.data ++ ['"'] := by
  have hall : ∀ c ∈ s.data, cleanChar c = true := by
    simpa [cleanStr, List.all_eq_true] using h
  rw [jsonQuote, flatten_escChar hall]

theorem skipWs_append_ws {pre : List Char} (h : ∀ c ∈ pre, isWsChar c = true)
    (l : List Char) : skipWs (pre ++ l) = skipWs l := by
  induction pre with
  | nil => rfl
  | cons c pre ih =>
    have hc := h c (by simp)
    have hp : ∀ x ∈ pre, isWsChar x = true := fun x hx => h x (by simp [hx])
    simp [skipWs, hc, ih hp]

theorem skipWs_cons_not {c : Char} {l : List Char} (h : isWsChar c = false) :
    skipWs (c :: l) = c :: l := by
  simp [skipWs, h]

theorem parseStringBody_clean :
    ∀ {l : List Char}, (∀ c ∈ l, cleanChar c = true) →
      ∀ rest, parseStringBody (l ++ '"' :: rest) = some (l, rest) := by
  intro l
  induction l with
  | nil => intro _ rest; rw [parseStringBody.eq_def]; simp
  | cons c l ih =>
    intro h rest
    obtain ⟨-, hq, hb⟩ := cleanChar_spec (h c (by simp))
    have hl : ∀ x ∈ l, cleanChar x = true := fun x hx => h x (by simp [hx])
    rw [List.cons_append, parseStringBody.eq_def]
    dsimp only
    rw [if_neg hq, if_neg hb, ih hl rest]

theorem parseString_pre {pre : List Char} (hpre : ∀ c ∈ pre, isWsChar c = true)
    {s : String} (hs : cleanStr s = true) (rest : List Char) :
    parseString (pre ++ '"' :: s.data ++ '"' :: rest) = some (s, rest) := by
  have hall : ∀ c ∈ s.data, cleanChar c = true := by
    simpa [cleanStr, List.all_eq_true] using hs
  unfold parseString
  rw [List.append_assoc, List.cons_append, skipWs_append_ws hpre,
    skipWs_cons_not (by decide)]
  dsimp only
  rw [parseStringBody_clean hall rest]
  cases s with
  | mk d => rfl

end Lxb

namespace Lxb

theorem ws_append {p1 p2 : List Char} (h1 : ∀ c ∈ p1, isWsChar c = true)
    (h2 : ∀ c ∈ p2, isWsChar c = true) : ∀ c ∈ p1 ++ p2, isWsChar c = true := by
  intro c hc
  rcases List.mem_append.mp hc with h | h
  · exact h1 c h
  · exact h2 c h

theorem ws_spaces4 : ∀ c ∈ [' ', ' ', ' ', ' '], isWsChar c = true := by decide

theorem ws_space1 : ∀ c ∈ [' '], isWsChar c = true := by decide

theorem ws_nl1 : ∀ c ∈ ['\n'], isWsChar c = true := by decide

theorem skipWs_inner_close (tail : List Char) :
    skipWs ('\n' :: ' ' :: ' ' :: '}' :: tail) = '}' :: tail := by
  simp [skipWs, isWsChar]

theorem skipWs_outer_close (tail : List Char) :
    skipWs ('\n' :: '}' :: tail) = '}' :: tail := by
  simp [skipWs, isWsChar]

theorem parseInnerMembers_ser :
    ∀ (m : List (String × String)), m ≠ [] → cleanInner m = true →
      ∀ (fuel : Nat), m.length ≤ fuel →
      ∀ (pre tail : List Char), (∀ c ∈ pre, isWsChar c = true) →
        parseInnerMembers
            (pre ++ joinSep [',', '\n'] (m.map innerMemberStr)
              ++ '\n' :: ' ' :: ' ' :: '}' :: tail) fuel
          = some (m, tail) := by
  intro m
  induction m with
  | nil => intro h; exact absurd rfl h
  | cons kv m' ih =>
    intro _ hclean fuel hfuel pre tail hpre
    have hk1 : cleanStr kv.1 = true := by
      simp [cleanInner] at hclean; exact hclean.1.1
    have hk2 : cleanStr kv.2 = true := by
      simp [cleanInner] at hclean; exact hclean.1.2
    have hcl' : cleanInner m' = true := by
      simp [cleanInner] at hclean
      simp [cleanInner, List.all_eq_true]
      intro a b hab
      exact hclean.2 a b hab
    cases fuel with
    | zero => simp at hfuel
    | succ fuel =>
      rw [parseInnerMembers.eq_def]
      dsimp only
      cases m' with
      | nil =>
        have e1 : pre ++ joinSep [',', '\n'] ([kv].map innerMemberStr)
              ++ '\n' :: ' ' :: ' ' :: '}' :: tail
            = (pre ++ [' ', ' ', ' ', ' ']) ++ '"' :: kv.1.data
                ++ '"' :: (':' :: ' ' :: (jsonQuote kv.2
                  ++ '\n' :: ' ' :: ' ' :: '}' :: tail)) := by
          simp [joinSep, innerMemberStr, jsonQuote_clean hk1, List.append_assoc]
        rw [e1, parseString_pre (ws_append hpre ws_spaces4) hk1]
        dsimp only
        rw [skipWs_cons_not (by decide)]
        dsimp only
        rw [if_pos rfl]
        have e2 : ' ' :: (jsonQuote kv.2 ++ '\n' :: ' ' :: ' ' :: '}' :: tail)
            = [' '] ++ '"' :: kv.2.data ++ '"' :: ('\n' :: ' ' :: ' ' :: '}' :: tail) := by
          simp [jsonQuote_clean hk2, List.append_assoc]
        rw [e2, parseString_pre ws_space1 hk2]
        dsimp only
        rw [skipWs_inner_close]
        dsimp only
        rw [if_neg (by decide), if_pos rfl]
      | cons kv2 m'' =>
        have e1 : pre ++ joinSep [',', '\n'] ((kv :: kv2 :: m'').map innerMemberStr)
              ++ '\n' :: ' ' :: ' ' :: '}' :: tail
            = (pre ++ [' ', ' ', ' ', ' ']) ++ '"' :: kv.1.data
                ++ '"' :: (':' :: ' ' :: (jsonQuote kv.2
                  ++ ',' :: '\n'
                    :: (joinSep [',', '\n'] ((kv2 :: m'').map innerMemberStr)
                      ++ '\n' :: ' ' :: ' ' :: '}' :: tail))) := by
          simp [joinSep, innerMemberStr, jsonQuote_clean hk1, List.append_assoc]
        rw [e1, parseString_pre (ws_append hpre ws_spaces4) hk1]
        dsimp only
        rw [skipWs_cons_not (by decide)]
        dsimp only
        rw [if_pos rfl]
        have e2 : ' ' :: (jsonQuote kv.2
              ++ ',' :: '\n'
                :: (joinSep [',', '\n'] ((kv2 :: m'').map innerMemberStr)
                  ++ '\n' :: ' ' :: ' ' :: '}' :: tail))
            = [' '] ++ '"' :: kv.2.data
                ++ '"' :: (',' :: '\n'
                  :: (joinSep [',', '\n'] ((kv2 :: m'').map innerMemberStr)
                    ++ '\n' :: ' ' :: ' ' :: '}' :: tail)) := by
          simp [jsonQuote_clean hk2, List.append_assoc]
        rw [e2, parseString_pre ws_space1 hk2]
        dsimp only
        rw [skipWs_cons_not (by decide)]
        dsimp only
        rw [if_pos rfl]
        have hrec := ih (by simp) hcl' fuel (by simpa using Nat.le_of_succ_le_succ hfuel)
          ['\n'] tail ws_nl1
        rw [show ('\n' :: (joinSep [',', '\n'] ((kv2 :: m'').map innerMemberStr)
              ++ '\n' :: ' ' :: ' ' :: '}' :: tail))
            = ['\n'] ++ joinSep [',', '\n'] ((kv2 :: m'').map innerMemberStr)
              ++ '\n' :: ' ' :: ' ' :: '}' :: tail from by simp]
        rw [hrec]

end Lxb

namespace Lxb

theorem skipWs_quote (X : List Char) : skipWs ('"' :: X) = '"' :: X :=
  skipWs_cons_not (by decide)

theorem innerMembers_head (kv : String × String) (ms : List (String × String))
    (X : List Char) :
    ∃ R, joinSep [',', '\n'] ((kv :: ms).map innerMemberStr) ++ X
      = ' ' :: ' ' :: ' ' :: ' ' :: '"' :: R := by
  cases ms with
  | nil =>
    refine ⟨(kv.1.data.map escChar).flatten ++ '"' :: ':' :: ' ' :: (jsonQuote kv.2 ++ X), ?_⟩
    simp [joinSep, innerMemberStr, jsonQuote, List.append_assoc]
  | cons kv2 ms' =>
    refine ⟨(kv.1.data.map escChar).flatten ++ '"' :: ':' :: ' ' :: (jsonQuote kv.2
      ++ ',' :: '\n' :: (joinSep [',', '\n'] ((kv2 :: ms').map innerMemberStr) ++ X)), ?_⟩
    simp [joinSep, innerMemberStr, jsonQuote, List.append_assoc]

theorem parseInnerObj_ser (m : List (String × String)) (hclean : cleanInner m = true)
    (fuel : Nat) (hfuel : m.length ≤ fuel) (pre tail : List Char)
    (hpre : ∀ c ∈ pre, isWsChar c = true) :
    parseInnerObj (pre ++ stringifyInner m ++ tail) fuel = some (m, tail) := by
  cases m with
  | nil =>
    unfold parseInnerObj
    rw [show pre ++ stringifyInner [] ++ tail = pre ++ '{' :: '}' :: tail from by
      simp [stringifyInner]]
    rw [skipWs_append_ws hpre, skipWs_cons_not (by decide)]
    dsimp only
    rw [if_pos rfl, skipWs_cons_not (by decide)]
    dsimp only
    rw [if_pos rfl]
  | cons kv m' =>
    unfold parseInnerObj
    rw [show pre ++ stringifyInner (kv :: m') ++ tail
        = pre ++ '{' :: ('\n' :: (joinSep [',', '\n'] ((kv :: m').map innerMemberStr)
            ++ '\n' :: ' ' :: ' ' :: '}' :: tail)) from by
      simp [stringifyInner, List.append_assoc]]
    rw [skipWs_append_ws hpre, skipWs_cons_not (by decide)]
    dsimp only
    rw [if_pos rfl]
    obtain ⟨R, hR⟩ := innerMembers_head kv m' ('\n' :: ' ' :: ' ' :: '}' :: tail)
    have hskip : skipWs ('\n' :: (joinSep [',', '\n'] ((kv :: m').map innerMemberStr)
          ++ '\n' :: ' ' :: ' ' :: '}' :: tail))
        = '"' :: R := by
      rw [hR]
      simp [skipWs, isWsChar]
    rw [hskip]
    dsimp only
    rw [if_neg (by decide)]
    rw [show ('\n' :: (joinSep [',', '\n'] ((kv :: m').map innerMemberStr)
          ++ '\n' :: ' ' :: ' ' :: '}' :: tail))
        = ['\n'] ++ joinSep [',', '\n'] ((kv :: m').map innerMemberStr)
          ++ '\n' :: ' ' :: ' ' :: '}' :: tail from by simp]
    exact parseInnerMembers_ser (kv :: m') (by simp) hclean fuel hfuel ['\n'] tail ws_nl1

end Lxb

namespace Lxb

theorem ws_spaces2 : ∀ c ∈ [' ', ' '], isWsChar c = true := by decide

theorem parseOuterMembers_ser :
    ∀ (c : Cache), c ≠ [] → cleanCache c = true →
      ∀ (fuel : Nat), c.length + (c.map (fun e => e.2.length)).sum ≤ fuel →
      ∀ (pre tail : List Char), (∀ x ∈ pre, isWsChar x = true) →
        parseOuterMembers
            (pre ++ joinSep [',', '\n'] (c.map outerMemberStr) ++ '\n' :: '}' :: tail) fuel
          = some (c, tail) := by
  intro c
  induction c with
  | nil => intro h; exact absurd rfl h
  | cons e c' ih =>
    intro _ hclean fuel hfuel pre tail hpre
    have he1 : cleanStr e.1 = true := by
      simp [cleanCache] at hclean; exact hclean.1.1
    have hem : cleanInner e.2 = true := by
      simp [cleanCache] at hclean; exact hclean.1.2
    have hc' : cleanCache c' = true := by
      simp [cleanCache] at hclean
      simp [cleanCache, List.all_eq_true]
      intro a b hab
      exact hclean.2 a b hab
    cases fuel with
    | zero => simp at hfuel
    | succ fuel =>
      rw [parseOuterMembers.eq_def]
      dsimp only
      cases c' with
      | nil =>
        have hf2 : e.2.length ≤ fuel := by
          simp at hfuel; omega
        have e1 : pre ++ joinSep [',', '\n'] ([e].map outerMemberStr) ++ '\n' :: '}' :: tail
            = (pre ++ [' ', ' ']) ++ '"' :: e.1.data
                ++ '"' :: (':' :: ' ' :: (stringifyInner e.2 ++ '\n' :: '}' :: tail)) := by
          simp [joinSep, outerMemberStr, jsonQuote_clean he1, List.append_assoc]
        rw [e1, parseString_pre (ws_append hpre ws_spaces2) he1]
        dsimp only
        rw [skipWs_cons_not (by decide)]
        dsimp only
        rw [if_pos rfl]
        rw [show (' ' :: (stringifyInner e.2 ++ '\n' :: '}' :: tail))
            = [' '] ++ stringifyInner e.2 ++ '\n' :: '}' :: tail from by simp]
        rw [parseInnerObj_ser e.2 hem fuel hf2 [' '] _ ws_space1]
        dsimp only
        rw [skipWs_outer_close]
        dsimp only
        rw [if_neg (by decide), if_pos rfl]
      | cons e2 c'' =>
        have hf2 : e.2.length ≤ fuel := by
          simp at hfuel; omega
        have hfrec : (e2 :: c'').length + ((e2 :: c'').map (fun x => x.2.length)).sum ≤ fuel := by
          simp at hfuel ⊢; omega
        have e1 : pre ++ joinSep [',', '\n'] ((e :: e2 :: c'').map outerMemberStr)
              ++ '\n' :: '}' :: tail
            = (pre ++ [' ', ' ']) ++ '"' :: e.1.data
                ++ '"' :: (':' :: ' ' :: (stringifyInner e.2
                  ++ ',' :: '\n' :: (joinSep [',', '\n'] ((e2 :: c'').map outerMemberStr)
                    ++ '\n' :: '}' :: tail))) := by
          simp [joinSep, outerMemberStr, jsonQuote_clean he1, List.append_assoc]
        rw [e1, parseString_pre (ws_append hpre ws_spaces2) he1]
        dsimp only
        rw [skipWs_cons_not (by decide)]
        dsimp only
        rw [if_pos rfl]
        rw [show (' ' :: (stringifyInner e.2
              ++ ',' :: '\n' :: (joinSep [',', '\n'] ((e2 :: c'').map outerMemberStr)
                ++ '\n' :: '}' :: tail)))
            = [' '] ++ stringifyInner e.2
                ++ ',' :: '\n' :: (joinSep [',', '\n'] ((e2 :: c'').map outerMemberStr)
                  ++ '\n' :: '}' :: tail) from by simp]
        rw [parseInnerObj_ser e.2 hem fuel hf2 [' '] _ ws_space1]
        dsimp only
        rw [skipWs_cons_not (by decide)]
        dsimp only
        rw [if_pos rfl]
        have hrec := ih (by simp) hc' fuel hfrec ['\n'] tail ws_nl1
        rw [show ('\n' :: (joinSep [',', '\n'] ((e2 :: c'').map outerMemberStr)
              ++ '\n' :: '}' :: tail))
            = ['\n'] ++ joinSep [',', '\n'] ((e2 :: c'').map outerMemberStr)
              ++ '\n' :: '}' :: tail from by simp]
        rw [hrec]

end Lxb

namespace Lxb

theorem stripQuoteEsc_id : ∀ (l : List Char), '\\' ∉ l → stripQuoteEsc l = l
  | [], _ => rfl
  | [c], _ => rfl
  | a :: b :: rest, h => by
    have ha : a ≠ '\\' := fun he => h (by simp [he])
    have hbr : '\\' ∉ b :: rest := fun hm => h (by simp at hm ⊢; tauto)
    rw [stripQuoteEsc]
    rw [if_neg (fun hcon => ha hcon.1)]
    rw [stripQuoteEsc_id (b :: rest) hbr]

theorem mem_joinSep {x : Char} {sep : List Char} :
    ∀ {parts : List (List Char)}, x ∈ joinSep sep parts →
      x ∈ sep ∨ ∃ p ∈ parts, x ∈ p := by
  intro parts
  induction parts with
  | nil => intro h; simp [joinSep] at h
  | cons p parts ih =>
    intro h
    cases parts with
    | nil =>
      simp [joinSep] at h
      exact Or.inr ⟨p, by simp, h⟩
    | cons q qs =>
      rw [joinSep] at h
      rcases List.mem_append.mp h with h1 | h2
      · rcases List.mem_append.mp h1 with ha | hb
        · exact Or.inr ⟨p, by simp, ha⟩
        · exact Or.inl hb
      · rcases ih h2 with ha | ⟨r, hr, hx⟩
        · exact Or.inl ha
        · exact Or.inr ⟨r, by simp at hr ⊢; tauto, hx⟩

theorem cleanInner_mem {m : List (String × String)} (h : cleanInner m = true)
    {kv : String × String} (hkv : kv ∈ m) :
    cleanStr kv.1 = true ∧ cleanStr kv.2 = true := by
  rw [cleanInner, List.all_eq_true] at h
  simpa [Bool.and_eq_true] using h kv hkv

theorem cleanCache_mem {c : Cache} (h : cleanCache c = true)
    {e : String × List (String × String)} (he : e ∈ c) :
    cleanStr e.1 = true ∧ cleanInner e.2 = true := by
  rw [cleanCache, List.all_eq_true] at h
  simpa [Bool.and_eq_true] using h e he

theorem noBS_jsonQuote {s : String} (h : cleanStr s = true) : '\\' ∉ jsonQuote s := by
  have hall : ∀ c ∈ s.data, cleanChar c = true := by
    simpa [cleanStr, List.all_eq_true] using h
  rw [jsonQuote_clean h]
  intro hm
  rcases List.mem_cons.mp hm with h1 | h2
  · exact absurd h1 (by decide)
  · rcases List.mem_append.mp h2 with h3 | h4
    · obtain ⟨-, -, hb⟩ := cleanChar_spec (hall _ h3)
      exact hb rfl
    · simp at h4

theorem noBS_innerMemberStr {kv : String × String}
    (h1 : cleanStr kv.1 = true) (h2 : cleanStr kv.2 = true) :
    '\\' ∉ innerMemberStr kv := by
  intro hm
  have hq1 := noBS_jsonQuote h1
  have hq2 := noBS_jsonQuote h2
  simp [innerMemberStr, hq1, hq2] at hm

theorem noBS_innerJoin {m : List (String × String)} (h : cleanInner m = true) :
    '\\' ∉ joinSep [',', '\n'] (m.map innerMemberStr) := by
  intro hx
  rcases mem_joinSep hx with hs | ⟨p, hp, hxp⟩
  · exact absurd hs (by decide)
  · obtain ⟨kv2, hkv2, hpe⟩ := List.mem_map.mp hp
    have hc := cleanInner_mem h hkv2
    exact noBS_innerMemberStr hc.1 hc.2 (hpe ▸ hxp)

theorem noBS_stringifyInner {m : List (String × String)} (h : cleanInner m = true) :
    '\\' ∉ stringifyInner m := by
  cases m with
  | nil => decide
  | cons kv m' =>
    intro hm
    have hjoin := noBS_innerJoin h
    rw [List.map_cons] at hjoin
    have hsi : stringifyInner (kv :: m')
        = '{' :: '\n' :: (joinSep [',', '\n'] ((kv :: m').map innerMemberStr)
          ++ ['\n', ' ', ' ', '}']) := by
      simp [stringifyInner]
    rw [hsi] at hm
    simp [hjoin] at hm

theorem noBS_outerMemberStr {e : String × List (String × String)}
    (h1 : cleanStr e.1 = true) (h2 : cleanInner e.2 = true) :
    '\\' ∉ outerMemberStr e := by
  intro hm
  have hq1 := noBS_jsonQuote h1
  have hq2 := noBS_stringifyInner h2
  simp [outerMemberStr, hq1, hq2] at hm

theorem noBS_outerJoin {c : Cache} (h : cleanCache c = true) :
    '\\' ∉ joinSep [',', '\n'] (c.map outerMemberStr) := by
  intro hx
  rcases mem_joinSep hx with hs | ⟨p, hp, hxp⟩
  · exact absurd hs (by decide)
  · obtain ⟨e2, he2, hpe⟩ := List.mem_map.mp hp
    have hc := cleanCache_mem h he2
    exact noBS_outerMemberStr hc.1 hc.2 (hpe ▸ hxp)

theorem noBS_stringifyCache {c : Cache} (h : cleanCache c = true) :
    '\\' ∉ stringifyCache c := by
  cases c with
  | nil => decide
  | cons e c' =>
    intro hm
    have hjoin := noBS_outerJoin h
    rw [List.map_cons] at hjoin
    have hsc : stringifyCache (e :: c')
        = '{' :: '\n' :: (joinSep [',', '\n'] ((e :: c').map outerMemberStr)
          ++ ['\n', '}']) := by
      simp [stringifyCache]
    rw [hsc] at hm
    simp [hjoin] at hm

theorem joinSep_length_ge (sep : List Char) :
    ∀ parts : List (List Char), (parts.map List.length).sum ≤ (joinSep sep parts).length := by
  intro parts
  induction parts with
  | nil => simp [joinSep]
  | cons p parts ih =>
    cases parts with
    | nil => simp [joinSep]
    | cons q qs =>
      rw [joinSep]
      simp only [List.map_cons, List.sum_cons, List.length_append]
      have := ih
      simp only [List.map_cons, List.sum_cons] at this
      omega

theorem count_le_sum :
    ∀ parts : List (List Char), (∀ p ∈ parts, 1 ≤ p.length) →
      parts.length ≤ (parts.map List.length).sum := by
  intro parts
  induction parts with
  | nil => simp
  | cons p parts ih =>
    intro h
    have hp := h p (by simp)
    have hr := ih (fun x hx => h x (by simp [hx]))
    simp only [List.length_cons, List.map_cons, List.sum_cons]
    omega

theorem stringifyInner_count (m : List (String × String)) :
    m.length ≤ (stringifyInner m).length := by
  cases m with
  | nil => simp [stringifyInner]
  | cons kv m' =>
    have hsi : stringifyInner (kv :: m')
        = '{' :: '\n' :: (joinSep [',', '\n'] ((kv :: m').map innerMemberStr)
          ++ ['\n', ' ', ' ', '}']) := by
      simp [stringifyInner]
    rw [hsi]
    have h1 := joinSep_length_ge [',', '\n'] ((kv :: m').map innerMemberStr)
    have h2 := count_le_sum ((kv :: m').map innerMemberStr) (by
      intro p hp
      rw [List.mem_map] at hp
      obtain ⟨kv2, -, hpe⟩ := hp
      rw [← hpe]
      simp [innerMemberStr])
    simp only [List.length_map] at h2
    simp
    simp at h1 h2
    omega

theorem sum_one_add (c : Cache) :
    (c.map (fun e => 1 + e.2.length)).sum
      = c.length + (c.map (fun e => e.2.length)).sum := by
  induction c with
  | nil => simp
  | cons e c' ih => simp [ih]; omega

theorem stringifyCache_size (c : Cache) :
    c.length + (c.map (fun e => e.2.length)).sum ≤ (stringifyCache c).length := by
  cases c with
  | nil => simp [stringifyCache]
  | cons e c' =>
    have hsc : stringifyCache (e :: c')
        = '{' :: '\n' :: (joinSep [',', '\n'] ((e :: c').map outerMemberStr)
          ++ ['\n', '}']) := by
      simp [stringifyCache]
    rw [hsc]
    have h1 := joinSep_length_ge [',', '\n'] ((e :: c').map outerMemberStr)
    have h2 : ((e :: c').map (fun x => 1 + x.2.length)).sum
        ≤ (((e :: c').map outerMemberStr).map List.length).sum := by
      rw [List.map_map]
      apply List.sum_le_sum
      intro x hx
      have := stringifyInner_count x.2
      simp [outerMemberStr]
      omega
    rw [sum_one_add] at h2
    simp
    simp at h1 h2
    omega

end Lxb

namespace Lxb

theorem outerMembers_head (e : String × List (String × String)) (cs : Cache)
    (X : List Char) :
    ∃ R, joinSep [',', '\n'] ((e :: cs).map outerMemberStr) ++ X
      = ' ' :: ' ' :: '"' :: R := by
  cases cs with
  | nil =>
    refine ⟨(e.1.data.map escChar).flatten
      ++ '"' :: ':' :: ' ' :: (stringifyInner e.2 ++ X), ?_⟩
    simp [joinSep, outerMemberStr, jsonQuote, List.append_assoc]
  | cons e2 cs' =>
    refine ⟨(e.1.data.map escChar).flatten
      ++ '"' :: ':' :: ' ' :: (stringifyInner e.2
        ++ ',' :: '\n' :: (joinSep [',', '\n'] ((e2 :: cs').map outerMemberStr) ++ X)), ?_⟩
    simp [joinSep, outerMemberStr, jsonQuote, List.append_assoc]

theorem parseCache_saveString (c : Cache) (hclean : cleanCache c = true) :
    parseCache (saveString c) = some c := by
  have hid : stripQuoteEsc (stringifyCache c) = stringifyCache c :=
    stripQuoteEsc_id _ (noBS_stringifyCache hclean)
  have hdata : (saveString c).data = stringifyCache c := by
    show stripQuoteEsc (stringifyCache c) = stringifyCache c
    exact hid
  cases c with
  | nil => decide
  | cons e c' =>
    unfold parseCache
    rw [hdata]
    have hsc : stringifyCache (e :: c')
        = '{' :: ('\n' :: (joinSep [',', '\n'] ((e :: c').map outerMemberStr)
          ++ ['\n', '}'])) := by
      simp [stringifyCache]
    rw [hsc]
    rw [skipWs_cons_not (by decide)]
    dsimp only
    rw [if_pos rfl]
    obtain ⟨R, hR⟩ := outerMembers_head e c' ['\n', '}']
    have hskip : skipWs ('\n' :: (joinSep [',', '\n'] ((e :: c').map outerMemberStr)
          ++ ['\n', '}'])) = '"' :: R := by
      rw [hR]
      simp [skipWs, isWsChar]
    rw [hskip]
    dsimp only
    rw [if_neg (by decide)]
    rw [show ('\n' :: (joinSep [',', '\n'] ((e :: c').map outerMemberStr) ++ ['\n', '}']))
        = ['\n'] ++ joinSep [',', '\n'] ((e :: c').map outerMemberStr)
          ++ '\n' :: '}' :: ([] : List Char) from by simp]
    have hbase := stringifyCache_size (e :: c')
    rw [hsc] at hbase
    have hF : (e :: c').length + ((e :: c').map (fun x => x.2.length)).sum
        ≤ ('{' :: (['\n'] ++ joinSep [',', '\n'] ((e :: c').map outerMemberStr)
          ++ '\n' :: '}' :: ([] : List Char))).length + 1 := by
      simp at hbase ⊢
      omega
    rw [parseOuterMembers_ser (e :: c') (by simp) hclean _ hF ['\n'] [] ws_nl1]
    dsimp only
    rw [show skipWs ([] : List Char) = [] from rfl]
    simp

theorem assocGet_assocPut_self {α : Type} :
    ∀ (l : List (String × α)) (k : String) (v : α), assocGet (assocPut l k v) k = some v
  | [], k, v => by simp [assocPut, assocGet]
  | (k', w) :: rest, k, v => by
    by_cases hk : k' = k
    · simp [assocPut, hk, assocGet]
    · simp [assocPut, hk, assocGet, assocGet_assocPut_self rest k v]

theorem cacheGet_cachePut_self (c : Cache) (f t v : String) :
    cacheGet (cachePut c f t v) f t = some v := by
  unfold cachePut
  cases hx : assocGet c f with
  | none =>
    dsimp only
    rw [cacheGet, assocGet_append_of_none _ hx]
    dsimp only
    simp [assocGet]
  | some m =>
    dsimp only
    rw [cacheGet, assocGet_assocPut_self]
    dsimp only
    rw [assocGet_assocPut_self]

/-- C7 (counterexample): read-your-writes holds in memory, but after `save()`
followed by a fresh `load()` an entry whose value contains a double quote is
gone: `saveCache` strips the `\"` escapes from the serialized JSON, the store
no longer parses, and the loader falls back to an empty cache. -/
theorem cache_roundtrip_quote_counterexample :
    cacheGet (cachePut [] "f" "Jump" "Sal\"tar") "f" "Jump" = some "Sal\"tar" ∧
    cacheGet (loadCacheStr (some (saveString (cachePut [] "f" "Jump" "Sal\"tar"))))
        "f" "Jump"
      ≠ some "Sal\"tar" := by
  constructor
  · decide
  · decide

/-- C7 (amended): `get` after `put` for the same key always returns the
just-written value; and the persisted store round-trips the entry — `get`
after `save()` and a fresh `load()` into an empty cache still returns it —
provided every key and value of the persisted cache consists of characters
at or above U+0020 other than the double quote and the backslash (the
escape-stripping in `saveCache` corrupts the store otherwise). -/
theorem cache_read_your_writes_roundtrip (c : Cache) (id t v : String)
    (hclean : cleanCache (cachePut c id t v) = true) :
    cacheGet (cachePut c id t v) id t = some v ∧
    cacheGet (loadCacheStr (some (saveString (cachePut c id t v)))) id t = some v := by
  refine ⟨cacheGet_cachePut_self c id t v, ?_⟩
  unfold loadCacheStr
  dsimp only
  rw [parseCache_saveString _ hclean]
  exact cacheGet_cachePut_self c id t v

theorem cache_read_your_writes_roundtrip_witness :
    cleanCache (cachePut [] "f" "Jump" "Saltar") = true ∧
    (cacheGet (cachePut [] "f" "Jump" "Saltar") "f" "Jump" = some "Saltar" ∧
      cacheGet (loadCacheStr (some (saveString (cachePut [] "f" "Jump" "Saltar"))))
          "f" "Jump"
        = some "Saltar") :=
  ⟨by decide, cache_read_your_writes_roundtrip [] "f" "Jump" "Saltar" (by decide)⟩

end Lxb
